import Mathlib

/-!
Verification of the terminal layout and rendering engine of the
http-monitor repository (TypeScript).  The TypeScript classes
(`TerminalUI`, `UIElement`, `UIFlex`, `UIBox`, `UILogBox`, `UITable`)
are shallowly embedded below.  Strings are modelled as lists of
characters; the external packages string-width and widest-line are
modelled for plain ASCII text (no ANSI escape sequences occur in any
input considered here), where display width coincides with character
count.  JavaScript numbers are modelled by an extended-integer type
`JSNum` with NaN and the two infinities, since the source's arithmetic
(Math.max over an empty spread, division by a zero count) produces
those values.  Operations that throw in JavaScript (String.repeat of a
negative or infinite count) or diverge (a loop bounded by Infinity)
are modelled by Option, with none for the exceptional outcome.
-/

/-- A JavaScript string, modelled as its list of characters. -/
abbrev JStr := List Char

/-- Model of the split of a string on the newline character, matching
the semantics of the JavaScript expression s.split over a one-newline
separator: the empty string yields one empty piece. -/
def splitLines : JStr → List JStr
  | [] => [[]]
  | c :: rest =>
    if c = '\n' then [] :: splitLines rest
    else
      match splitLines rest with
      | [] => [[c]]
      | l :: ls => (c :: l) :: ls

/-- Model of the JavaScript Array.prototype.join over a one-character
separator. -/
def joinWith (sep : Char) : List JStr → JStr
  | [] => []
  | [l] => l
  | l :: ls => l ++ sep :: joinWith sep ls

/-- Model of joining a list of strings with newline, matching the
JavaScript Array.prototype.join over a one-newline separator. -/
def joinLines (ls : List JStr) : JStr := joinWith '\n' ls

/-- Model of the string-width package restricted to plain ASCII text
without control sequences: the display width is the character count. -/
def stringWidth (s : JStr) : Nat := s.length

/-- Model of the widest-line package: the maximum display width over
the lines of the string (0 for the empty string). -/
def widestLine (s : JStr) : Nat :=
  ((splitLines s).map stringWidth).foldl Nat.max 0

/-- A JavaScript number as produced by the layout arithmetic: an
integer, NaN, or one of the two infinities. -/
inductive JSNum where
  | nan : JSNum
  | inf : JSNum
  | ninf : JSNum
  | num : Int → JSNum
deriving DecidableEq, Repr

/-- JavaScript addition restricted to the values the layout code
produces (integers, NaN and the infinities). -/
def jsAdd : JSNum → JSNum → JSNum
  | .nan, _ => .nan
  | _, .nan => .nan
  | .inf, .ninf => .nan
  | .ninf, .inf => .nan
  | .inf, _ => .inf
  | _, .inf => .inf
  | .ninf, _ => .ninf
  | _, .ninf => .ninf
  | .num a, .num b => .num (a + b)

/-- JavaScript subtraction restricted to the values the layout code
produces. -/
def jsSub : JSNum → JSNum → JSNum
  | .nan, _ => .nan
  | _, .nan => .nan
  | .inf, .inf => .nan
  | .ninf, .ninf => .nan
  | .inf, _ => .inf
  | .ninf, _ => .ninf
  | .num _, .inf => .ninf
  | .num _, .ninf => .inf
  | .num a, .num b => .num (a - b)

/-- Model of the JavaScript expression Math.floor of a division by a
list length: division by zero yields an infinity (or NaN for 0/0), and
otherwise the floor of the exact quotient, which for integers is floor
division. -/
def jsFloorDiv : JSNum → Nat → JSNum
  | .nan, _ => .nan
  | .inf, _ => .inf
  | .ninf, _ => .ninf
  | .num a, 0 =>
    if a > 0 then .inf else if a < 0 then .ninf else .nan
  | .num a, (n+1) => .num (Int.fdiv a (n+1))

/-- Model of the JavaScript expression Math.max of 0 and a number:
NaN propagates, negative values (and negative infinity) clamp to 0. -/
def jsMax0 : JSNum → JSNum
  | .nan => .nan
  | .inf => .inf
  | .ninf => .num 0
  | .num a => .num (max 0 a)

/-- Model of the two-argument Math.max: NaN propagates. -/
def jsMax2 : JSNum → JSNum → JSNum
  | .nan, _ => .nan
  | _, .nan => .nan
  | .inf, _ => .inf
  | _, .inf => .inf
  | .ninf, b => b
  | a, .ninf => a
  | .num a, .num b => .num (max a b)

/-- Model of the two-argument Math.min: NaN propagates. -/
def jsMin2 : JSNum → JSNum → JSNum
  | .nan, _ => .nan
  | _, .nan => .nan
  | .ninf, _ => .ninf
  | _, .ninf => .ninf
  | .inf, b => b
  | a, .inf => a
  | .num a, .num b => .num (min a b)

/-- Model of Math.max applied to a spread list: the fold of the
two-argument maximum starting from negative infinity, which is what
the JavaScript Math.max returns on an empty argument list. -/
def jsMaxList (xs : List JSNum) : JSNum := xs.foldl jsMax2 .ninf

/-- Model of the multiplication of a list length by a number:
0 times an infinity or NaN is NaN. -/
def jsMulNat : Nat → JSNum → JSNum
  | _, .nan => .nan
  | 0, .inf => .nan
  | 0, .ninf => .nan
  | 0, .num _ => .num 0
  | _+1, .inf => .inf
  | _+1, .ninf => .ninf
  | (n+1), .num a => .num ((n+1) * a)

/-- Model of the JavaScript expression producing a run of spaces via
String.repeat: a negative or infinite count throws RangeError
(modelled none), NaN converts to 0 and yields the empty string. -/
def jsRepeatSpaces : JSNum → Option JStr
  | .nan => some []
  | .inf => none
  | .ninf => none
  | .num a => if a < 0 then none else some (List.replicate a.toNat ' ')

/-- Sequence a list of fallible computations in order, stopping at the
first failure, as JavaScript evaluation does when an expression in an
iteration throws. -/
def mapOption (f : α → Option β) : List α → Option (List β)
  | [] => some []
  | x :: xs =>
    match f x with
    | none => none
    | some y =>
      match mapOption f xs with
      | none => none
      | some ys => some (y :: ys)

/-- Model of a for loop bound compared with a JSNum: a NaN or negative
bound runs zero iterations, an infinite bound diverges (none). -/
def loopBound : JSNum → Option Nat
  | .nan => some 0
  | .ninf => some 0
  | .inf => none
  | .num a => some a.toNat

/-- The render constraints record passed to UIElement.render in the
source: a maximum width and a maximum height. -/
structure RenderConstraints where
  maxWidth : JSNum
  maxHeight : JSNum
deriving Repr

/-- The two flex directions of the source type FlexDirection. -/
inductive FlexDirection where
  | horizontal : FlexDirection
  | vertical : FlexDirection
deriving DecidableEq, Repr

/-- The layout element tree.  A leaf stands for a concrete non-Flex
UIElement subclass (UIBox, UILogBox, UITable) at a given moment: its
fixed dimensions, the values its calculateHeight and calculateWidth
methods return in that state, and its render method.  A flex node is a
UIFlex with its fixed dimensions, direction and ordered children. -/
inductive UIElement where
  | leaf (fixedHeight fixedWidth : Option Int) (calcH calcW : Int)
      (renderContent : RenderConstraints → JStr) : UIElement
  | flex (fixedHeight fixedWidth : Option Int) (direction : FlexDirection)
      (elements : List UIElement) : UIElement

namespace UIElement

/-- The fixedHeight attribute of the UIElement base class. -/
def fixedHeightAttr : UIElement → Option Int
  | leaf fh _ _ _ _ => fh
  | flex fh _ _ _ => fh

/-- The fixedWidth attribute of the UIElement base class. -/
def fixedWidthAttr : UIElement → Option Int
  | leaf _ fw _ _ _ => fw
  | flex _ fw _ _ => fw

mutual

/-- UIFlex.calculateHeight (and the calcH value of a leaf).
Horizontal direction: Math.max over the children's height getters.
Vertical direction: deduct the fixed children's heights from the own
fixed height (or positive infinity when unset), divide the remainder
by the number of flexible children with Math.floor, clamp at 0, and
return the fixed heights' sum plus that share times the flexible
count. -/
def calculateHeight (el : UIElement) : JSNum :=
  match el with
  | leaf _ _ cH _ _ => .num cH
  | flex _ _ .horizontal elems => jsMaxList (heightList elems)
  | flex fh _ .vertical elems =>
    let start : JSNum := match fh with | some v => .num v | none => .inf
    let remaining := elems.foldl
      (fun acc e => match e.fixedHeightAttr with
        | some v => jsSub acc (.num v)
        | none => acc) start
    let flexCount := elems.countP (fun e => e.fixedHeightAttr = none)
    let flexibleHeight := jsMax0 (jsFloorDiv remaining flexCount)
    let fixedSum := elems.foldl
      (fun acc e => match e.fixedHeightAttr with
        | some v => jsAdd acc (.num v)
        | none => acc) (.num 0)
    jsAdd fixedSum (jsMulNat flexCount flexibleHeight)

/-- The height getters of a list of children, in order (each entry is
the fixed height if set, else the computed height, exactly the body of
the height getter below). -/
def heightList : List UIElement → List JSNum
  | [] => []
  | el :: rest =>
    (match el.fixedHeightAttr with
      | some v => .num v
      | none => calculateHeight el) :: heightList rest

end

/-- The height getter of UIElement: the fixed height if set, else the
freshly computed calculateHeight. -/
def height (el : UIElement) : JSNum :=
  match el.fixedHeightAttr with
  | some v => .num v
  | none => calculateHeight el

mutual

/-- UIFlex.calculateWidth (and the calcW value of a leaf): the exact
mirror image of calculateHeight with the axes swapped. -/
def calculateWidth (el : UIElement) : JSNum :=
  match el with
  | leaf _ _ _ cW _ => .num cW
  | flex _ fw .horizontal elems =>
    let start : JSNum := match fw with | some v => .num v | none => .inf
    let remaining := elems.foldl
      (fun acc e => match e.fixedWidthAttr with
        | some v => jsSub acc (.num v)
        | none => acc) start
    let flexCount := elems.countP (fun e => e.fixedWidthAttr = none)
    let flexibleWidth := jsMax0 (jsFloorDiv remaining flexCount)
    let fixedSum := elems.foldl
      (fun acc e => match e.fixedWidthAttr with
        | some v => jsAdd acc (.num v)
        | none => acc) (.num 0)
    jsAdd fixedSum (jsMulNat flexCount flexibleWidth)
  | flex _ _ .vertical elems => jsMaxList (widthList elems)

/-- The width getters of a list of children, in order. -/
def widthList : List UIElement → List JSNum
  | [] => []
  | el :: rest =>
    (match el.fixedWidthAttr with
      | some v => .num v
      | none => calculateWidth el) :: widthList rest

end

/-- The width getter of UIElement: the fixed width if set, else the
freshly computed calculateWidth. -/
def width (el : UIElement) : JSNum :=
  match el.fixedWidthAttr with
  | some v => .num v
  | none => calculateWidth el

end UIElement

/-- The remainingWidth of UIFlex.renderHorizontal after deducting each
fixed-width child's width getter from the starting budget (the filter
of the source guarantees the getter returns the fixed width there). -/
def horizRemaining (elems : List UIElement) (start : JSNum) : JSNum :=
  elems.foldl
    (fun acc e => match e.fixedWidthAttr with
      | some v => jsSub acc (.num v)
      | none => acc) start

/-- The number of flexible-width children of a Flex. -/
def flexWidthCount (elems : List UIElement) : Nat :=
  elems.countP (fun e => e.fixedWidthAttr = none)

/-- The flexibleWidth of UIFlex.renderHorizontal: Math.max of 0 and
the floored division of the remaining width by the flexible count.
The source has no guard for a zero count; the division semantics of
jsFloorDiv apply. -/
def horizFlexibleWidth (elems : List UIElement) (start : JSNum) : JSNum :=
  jsMax0 (jsFloorDiv (horizRemaining elems start) (flexWidthCount elems))

/-- The remainingHeight of UIFlex.renderVertical after deducting each
fixed-height child's height getter from the starting budget. -/
def vertRemaining (elems : List UIElement) (start : JSNum) : JSNum :=
  elems.foldl
    (fun acc e => match e.fixedHeightAttr with
      | some v => jsSub acc (.num v)
      | none => acc) start

/-- One child's contribution to output line number i of
UIFlex.renderHorizontal: its rendered line number i, or, when that
line is missing or empty (the JavaScript or-expression treats the
empty string as falsy), a run of spaces of the child's assigned
width. -/
def horizPiece (i : Nat) (ed : JSNum × JSNum × List JStr) : Option JStr :=
  match ed.2.2[i]? with
  | some l => if l = [] then jsRepeatSpaces ed.1 else some l
  | none => jsRepeatSpaces ed.1

/-- One output line of UIFlex.renderHorizontal: the children's pieces
for line number i joined with a single space. -/
def horizLineAt (eds : List (JSNum × JSNum × List JStr)) (i : Nat) : Option JStr :=
  match mapOption (horizPiece i) eds with
  | none => none
  | some pieces => some (joinWith ' ' pieces)

/-- One padded line of UIFlex.renderVertical: append spaces up to the
widest child width (clamped at zero). -/
def padLine (widestWidth : JSNum) (l : JStr) : Option JStr :=
  match jsRepeatSpaces (jsMax0 (jsSub widestWidth (.num (stringWidth l)))) with
  | none => none
  | some pad => some (l ++ pad)

namespace UIElement

mutual

/-- UIElement.render dispatched as in the source: a leaf renders its
own content, a UIFlex runs renderHorizontal or renderVertical by
direction (their bodies are inlined here so the recursion is
structural; the named wrappers below restate them).
The horizontal body: compute the flexible width share, render every
child with its assigned width and the minimum of its height getter and
the height budget, then emit one line per index up to the maximum
child height, joining the children's lines with single spaces.
The vertical body: deduct the fixed children's heights from the height
budget, render each child in order under the sequentially consumed
budget and the minimum of the widest child width and the width budget,
join with newlines, and right-pad every line to the widest child
width. -/
def render (el : UIElement) (dims : RenderConstraints) : Option JStr :=
  match el with
  | .leaf _ _ _ _ f => some (f dims)
  | .flex _ _ .horizontal elems =>
    let flexibleWidth := horizFlexibleWidth elems dims.maxWidth
    match horizChildren elems dims flexibleWidth with
    | none => none
    | some eds =>
      match loopBound (jsMaxList (eds.map (fun ed => ed.2.1))) with
      | none => none
      | some bound =>
        match mapOption (fun i => horizLineAt eds i) (List.range bound) with
        | none => none
        | some lines => some (joinLines lines)
  | .flex _ _ .vertical elems =>
    let widestWidth := jsMaxList (widthList elems)
    let rem0 := vertRemaining elems dims.maxHeight
    let w := jsMin2 widestWidth dims.maxWidth
    match vertChildren elems rem0 w with
    | none => none
    | some pieces =>
      let content := joinLines (pieces.map (fun p => p.2))
      match mapOption (fun l => padLine widestWidth l) (splitLines content) with
      | none => none
      | some padded => some (joinLines padded)

/-- The per-child pass of UIFlex.renderHorizontal: assigned width is
the fixed width if set, else the flexible share; assigned height is
Math.min of the height getter and the height budget; the child is
rendered under those constraints and split into lines. -/
def horizChildren (elems : List UIElement) (dims : RenderConstraints)
    (flexibleWidth : JSNum) : Option (List (JSNum × JSNum × List JStr)) :=
  match elems with
  | [] => some []
  | el :: rest =>
    let w : JSNum := match el.fixedWidthAttr with
      | some v => .num v
      | none => flexibleWidth
    let h := jsMin2 (height el) dims.maxHeight
    match render el ⟨w, h⟩ with
    | none => none
    | some s =>
      match horizChildren rest dims flexibleWidth with
      | none => none
      | some others => some ((w, h, splitLines s) :: others)

/-- The per-child pass of UIFlex.renderVertical: assigned height is
the fixed height if set, else Math.min of calculateHeight and the
remaining budget, which is then decremented by the assigned height. -/
def vertChildren (elems : List UIElement) (rem w : JSNum) :
    Option (List (JSNum × JStr)) :=
  match elems with
  | [] => some []
  | el :: rest =>
    let h : JSNum := match el.fixedHeightAttr with
      | some v => .num v
      | none => jsMin2 (calculateHeight el) rem
    match render el ⟨w, h⟩ with
    | none => none
    | some s =>
      match vertChildren rest (jsSub rem h) w with
      | none => none
      | some others => some ((h, s) :: others)

end

/-- UIFlex.renderHorizontal as a named function: the horizontal body
of render (the dispatch in render ignores the flex node's own fixed
dimensions, so this is exactly the private method of the source). -/
def renderHorizontal (elems : List UIElement) (dims : RenderConstraints) :
    Option JStr :=
  render (.flex none none .horizontal elems) dims

/-- UIFlex.renderVertical as a named function. -/
def renderVertical (elems : List UIElement) (dims : RenderConstraints) :
    Option JStr :=
  render (.flex none none .vertical elems) dims

end UIElement

/-- The options bag of the boxen package as used by UIBox: the spread
in UIBox.render overrides only the width and height fields, so the
model keeps those explicit and carries the decoration fields opaquely. -/
structure BoxenOptions where
  width : Option JSNum := none
  height : Option JSNum := none
  borderStyle : Option JStr := none
  borderColor : Option JStr := none
  title : Option JStr := none
deriving Repr

/-- The state of a UIBox: its text content, its boxen options and the
fixed dimensions of the UIElement base class. -/
structure UIBox where
  content : JStr
  boxOptions : BoxenOptions := {}
  fixedHeight : Option Int := none
  fixedWidth : Option Int := none

namespace UIBox

/-- UIBox.render: call boxen (the external renderer, passed as a
function parameter since it is not part of this repository) on the
content, spreading the stored options and overriding their width and
height with the constraints' bounds, or with undefined when called
without constraints. -/
def render (boxenFn : JStr → BoxenOptions → JStr) (b : UIBox)
    (constraints : Option RenderConstraints) : JStr :=
  boxenFn b.content
    { b.boxOptions with
        width := constraints.map (fun c => c.maxWidth)
        height := constraints.map (fun c => c.maxHeight) }

/-- UIBox.calculateHeight: the line count of one unconstrained render. -/
def calculateHeight (boxenFn : JStr → BoxenOptions → JStr) (b : UIBox) : Nat :=
  (splitLines (render boxenFn b none)).length

/-- UIBox.calculateWidth: the widest line of one unconstrained render. -/
def calculateWidth (boxenFn : JStr → BoxenOptions → JStr) (b : UIBox) : Nat :=
  widestLine (render boxenFn b none)

end UIBox

/-- The state of a UILogBox: the Box state it extends plus the list of
retained log lines, newest first. -/
structure UILogBox where
  logs : List JStr
  content : JStr
  boxOptions : BoxenOptions := {}

/-- A UILogBox as the constructor leaves it: no logs, empty content. -/
def UILogBox.init (opts : BoxenOptions) : UILogBox :=
  { logs := [], content := [], boxOptions := opts }

/-- UILogBox.appendLog: unshift the new line onto logs, then set
content to the newline join of all retained logs. -/
def UILogBox.appendLog (log : JStr) (lb : UILogBox) : UILogBox :=
  { lb with logs := log :: lb.logs, content := joinLines (log :: lb.logs) }

/-- The state of a UITable: headers and row data. -/
structure UITable where
  headers : List JStr
  data : List (List JStr)
  fixedHeight : Option Int := none
  fixedWidth : Option Int := none

namespace UITable

/-- UITable.setData: wholesale replacement of the rows. -/
def setData (rows : List (List JStr)) (t : UITable) : UITable :=
  { t with data := rows }

/-- UITable.render as declared in the source: the method takes no
constraint parameter at all and builds the grid from the headers and
rows alone.  The external cli-table formatter is passed as a function
parameter since it is not part of this repository. -/
def render (fmt : List JStr → List (List JStr) → JStr) (t : UITable) : JStr :=
  fmt t.headers t.data

/-- UITable.render as invoked through the UIElement interface: the
caller passes render constraints, and JavaScript silently drops the
extra argument because the method signature declares none. -/
def renderAt (fmt : List JStr → List (List JStr) → JStr) (t : UITable)
    (_constraints : RenderConstraints) : JStr :=
  render fmt t

end UITable

/-- The observable state of the TerminalUI driver for the start and
signal claims: whether start has already run, how many SIGINT
listeners process.on has installed, and the sequence of writes made to
the terminal. -/
structure SurfaceState where
  isRunning : Bool
  sigintListeners : Nat
  out : List JStr
deriving DecidableEq, Repr

/-- The escape string TerminalUI.start writes: clear screen, move to
the origin, hide the cursor. -/
def startEscapes : JStr := "\x1b[2J\x1b[0;0H\x1b[?25l".data

/-- TerminalUI.start: it first installs a SIGINT listener with
process.on, then returns early if already running, else marks running
and writes the clear-and-hide escape sequence. -/
def TerminalUI.start (s : SurfaceState) : SurfaceState :=
  let s1 := { s with sigintListeners := s.sigintListeners + 1 }
  if s1.isRunning then s1
  else { s1 with isRunning := true, out := s1.out ++ [startEscapes] }

/-- A TerminalUI as the constructor leaves it. -/
def TerminalUI.init : SurfaceState :=
  { isRunning := false, sigintListeners := 0, out := [] }

/-- One observable action of a SIGINT handler. -/
inductive SigAction where
  | write (s : JStr) : SigAction
  | consoleLog (s : JStr) : SigAction
  | exitProc (code : Option Nat) : SigAction
deriving DecidableEq, Repr

/-- The escape string TerminalUI.cleanup writes to restore cursor
visibility. -/
def showCursorEscape : JStr := "\x1b[?25h".data

/-- The actions of TerminalUI.cleanup: restore the cursor, write a
newline. -/
def cleanupActions : List SigAction :=
  [.write showCursorEscape, .write "\n".data]

/-- The actions of TerminalUI.exit: cleanup then process.exit(0). -/
def exitActions : List SigAction := cleanupActions ++ [.exitProc (some 0)]

/-- The SIGINT handler TerminalUI.start installs: log a message and
call process.exit() without any cleanup. -/
def coreSigintHandler : List SigAction :=
  [.consoleLog "Ctrl-C was pressed".data, .exitProc none]

/-- The SIGINT handler createMonitor installs: screen.exit(), that is
cleanup followed by process.exit(0). -/
def monitorSigintHandler : List SigAction := exitActions

/-- Run a flat action list as Node does on signal delivery: actions
execute in order and process.exit terminates immediately, so nothing
after the first exitProc is observable. -/
def runActions : List SigAction → List SigAction
  | [] => []
  | a :: rest =>
    match a with
    | .exitProc c => [.exitProc c]
    | _ => a :: runActions rest

/-- The observable trace of a SIGINT delivery given the installed
handlers in registration order: Node invokes the listeners in order,
and the trace cuts at the first process.exit. -/
def sigintTrace (handlers : List (List SigAction)) : List SigAction :=
  runActions handlers.flatten

/-- The SIGINT listeners of the assembled program, in registration
order: createMonitor registers its handler before screen.start()
registers the core handler. -/
def programSigintHandlers : List (List SigAction) :=
  [monitorSigintHandler, coreSigintHandler]

/-- Example element with fixed width 5 rendering a five-character
line, used for the horizontal overflow counterexample. -/
def exA : UIElement := .leaf none (some 5) 1 5 (fun _ => "aaaaa".data)

/-- Second example element with fixed width 5 rendering a
five-character line. -/
def exB : UIElement := .leaf none (some 5) 1 5 (fun _ => "bbbbb".data)

/-- Printable form of a JSNum, used by example render functions to
expose the constraints a child receives. -/
def jsNumChars : JSNum → JStr
  | .num k => (toString k).data
  | .nan => "NaN".data
  | .inf => "Infinity".data
  | .ninf => "-Infinity".data

/-- Example flexible element of intrinsic height 10 and width 3 whose
rendered text shows the height budget it was given. -/
def exVertA : UIElement := .leaf none none 10 3
  (fun c => 'A' :: jsNumChars c.maxHeight)

/-- Second example flexible element of intrinsic height 10 and width 3
whose rendered text shows the height budget it was given. -/
def exVertB : UIElement := .leaf none none 10 3
  (fun c => 'B' :: jsNumChars c.maxHeight)

/-- Example fixed-width element of width 10 for the zero-flexible
division claim. -/
def exFixed10 : UIElement := .leaf none (some 10) 3 10
  (fun _ => "xxxxxxxxxx".data)

/-- C4 counterexample: for a Flex with an empty elements list, neither
size query returns 0 in either direction, contradicting the claimed
zero-sized degradation. -/
theorem empty_flex_sizes_not_zero :
    UIElement.calculateHeight (.flex none none .horizontal []) ≠ .num 0 ∧
    UIElement.calculateWidth (.flex none none .horizontal []) ≠ .num 0 ∧
    UIElement.calculateHeight (.flex none none .vertical []) ≠ .num 0 ∧
    UIElement.calculateWidth (.flex none none .vertical []) ≠ .num 0 := by
  decide

/-- C4 amended: the size queries on an empty Flex do not raise, but
instead of 0 they return the JavaScript artefacts of the source: the
Math.max spread over no children gives negative infinity (horizontal
calculateHeight, vertical calculateWidth) and the flexible-share
arithmetic gives NaN via zero times Infinity (vertical
calculateHeight, horizontal calculateWidth). -/
theorem empty_flex_sizes_values :
    UIElement.calculateHeight (.flex none none .horizontal []) = .ninf ∧
    UIElement.calculateWidth (.flex none none .horizontal []) = .nan ∧
    UIElement.calculateHeight (.flex none none .vertical []) = .nan ∧
    UIElement.calculateWidth (.flex none none .vertical []) = .ninf := by
  decide

/-- C7: the height and width accessors return the fixed dimension
exactly whenever it is set, for every content, calculated size and
render function (and for flexes, for every child list), and when the
fixed dimension is unset they return the freshly computed
calculateHeight or calculateWidth of the current state. -/
theorem accessor_fixed_else_computed :
    (∀ (v : Int) fw cH cW f,
        UIElement.height (.leaf (some v) fw cH cW f) = .num v) ∧
    (∀ (v : Int) fw dir els,
        UIElement.height (.flex (some v) fw dir els) = .num v) ∧
    (∀ fw cH cW f,
        UIElement.height (.leaf none fw cH cW f) =
          UIElement.calculateHeight (.leaf none fw cH cW f)) ∧
    (∀ fw dir els,
        UIElement.height (.flex none fw dir els) =
          UIElement.calculateHeight (.flex none fw dir els)) ∧
    (∀ fh (v : Int) cH cW f,
        UIElement.width (.leaf fh (some v) cH cW f) = .num v) ∧
    (∀ fh (v : Int) dir els,
        UIElement.width (.flex fh (some v) dir els) = .num v) ∧
    (∀ fh cH cW f,
        UIElement.width (.leaf fh none cH cW f) =
          UIElement.calculateWidth (.leaf fh none cH cW f)) ∧
    (∀ fh dir els,
        UIElement.width (.flex fh none dir els) =
          UIElement.calculateWidth (.flex fh none dir els)) := by
  refine ⟨fun v fw cH cW f => ?_, fun v fw dir els => ?_,
    fun fw cH cW f => ?_, fun fw dir els => ?_,
    fun fh v cH cW f => ?_, fun fh v dir els => ?_,
    fun fh cH cW f => ?_, fun fh dir els => ?_⟩ <;>
  simp only [UIElement.height, UIElement.width, UIElement.fixedHeightAttr,
    UIElement.fixedWidthAttr]

/-- C5: appendLog prepends the new line to logs and sets content to
the newline join of all retained logs, newest first; in particular
after appending a, b and c to a fresh LogBox the content reads c, b, a
separated by newlines. -/
theorem appendLog_prepends_and_joins :
    (∀ (lb : UILogBox) (log : JStr),
        (lb.appendLog log).logs = log :: lb.logs ∧
        (lb.appendLog log).content = joinLines ((lb.appendLog log).logs)) ∧
    ((((UILogBox.init {}).appendLog "a".data).appendLog
        "b".data).appendLog "c".data).content = "c\nb\na".data :=
  ⟨fun _ _ => ⟨rfl, rfl⟩, rfl⟩

/-- C6: for every Box state and every boxen formatter, the intrinsic
size round-trips through one unconstrained render: calculateWidth is
the widest line of render with no constraints and calculateHeight is
its line count. -/
theorem box_intrinsic_size_roundtrip :
    ∀ (boxenFn : JStr → BoxenOptions → JStr) (b : UIBox),
      UIBox.calculateWidth boxenFn b =
        widestLine (UIBox.render boxenFn b none) ∧
      UIBox.calculateHeight boxenFn b =
        (splitLines (UIBox.render boxenFn b none)).length :=
  fun _ _ => ⟨rfl, rfl⟩

/-- C10: Table.render ignores its render constraints entirely: for
every formatter, table state and any two constraint pairs the rendered
output is identical, and equals the constraint-free render built from
the headers and rows alone. -/
theorem table_render_ignores_constraints :
    ∀ (fmt : List JStr → List (List JStr) → JStr) (t : UITable)
      (ca cb : RenderConstraints),
      UITable.renderAt fmt t ca = UITable.renderAt fmt t cb ∧
      UITable.renderAt fmt t ca = UITable.render fmt t :=
  fun _ _ _ _ => ⟨rfl, rfl⟩

/-- C8 counterexample: calling start a second time on a fresh surface
is not a no-op: the second call installs another SIGINT listener, so
the resulting state differs from the state after one call. -/
theorem second_start_not_noop :
    TerminalUI.start (TerminalUI.start TerminalUI.init) ≠
      TerminalUI.start TerminalUI.init := by
  decide

/-- C8 amended: when the surface is already running, a further start
call writes nothing to the terminal and leaves isRunning unchanged,
but it does install one more SIGINT listener before the early return,
because the listener registration precedes the isRunning guard. -/
theorem second_start_skips_terminal_setup :
    ∀ s : SurfaceState, s.isRunning = true →
      (TerminalUI.start s).out = s.out ∧
      (TerminalUI.start s).isRunning = s.isRunning ∧
      (TerminalUI.start s).sigintListeners = s.sigintListeners + 1 := by
  intro s h
  simp [TerminalUI.start, h]

/-- Witness for the C8 amended theorem at the state reached by one
start call on a fresh surface. -/
theorem second_start_skips_terminal_setup_witness :
    (TerminalUI.start TerminalUI.init).isRunning = true ∧
    ((TerminalUI.start (TerminalUI.start TerminalUI.init)).out =
        (TerminalUI.start TerminalUI.init).out ∧
      (TerminalUI.start (TerminalUI.start TerminalUI.init)).isRunning =
        (TerminalUI.start TerminalUI.init).isRunning ∧
      (TerminalUI.start (TerminalUI.start TerminalUI.init)).sigintListeners =
        (TerminalUI.start TerminalUI.init).sigintListeners + 1) :=
  ⟨by decide,
    second_start_skips_terminal_setup (TerminalUI.start TerminalUI.init)
      (by decide)⟩

/-- C9 counterexample: the SIGINT handler the core itself installs in
TerminalUI.start logs a message and exits without restoring the
cursor: its delivery trace terminates the process but contains no
cursor-restore write, so cleanup is not invoked by every handler the
core installs. -/
theorem core_sigint_handler_skips_cleanup :
    SigAction.write showCursorEscape ∉ sigintTrace [coreSigintHandler] ∧
    SigAction.exitProc none ∈ sigintTrace [coreSigintHandler] := by
  decide

/-- C9 amended: in the program as assembled by createMonitor, the
monitor-installed handler is registered first and runs first on
SIGINT; it restores cursor visibility and writes a newline before the
process terminates with exit code 0, and the core-installed handler
(which would skip cleanup) never runs because process.exit cuts the
listener chain. -/
theorem program_sigint_restores_cursor :
    sigintTrace programSigintHandlers =
      [.write showCursorEscape, .write "\n".data, .exitProc (some 0)] ∧
    SigAction.consoleLog "Ctrl-C was pressed".data ∉
      sigintTrace programSigintHandlers := by
  decide

/-- The vertical allocation rule exactly as the claim words it, as a
refinement target to compare with the embedded renderVertical: each
child's assigned height is its fixed height if set, else the minimum
of its calculated height and the remaining budget, and the budget is
decremented by the assigned height after each child. -/
def claimedAlloc : List (Option Int × JSNum) → JSNum → List JSNum
  | [], _ => []
  | (fh, ch) :: rest, rem =>
    let h : JSNum := match fh with
      | some v => .num v
      | none => jsMin2 ch rem
    h :: claimedAlloc rest (jsSub rem h)

/-- C2: the heights the vertical render pass assigns are exactly the
first-come allocation of the claim (fixed height if set, else the
minimum of calculateHeight and the remaining budget, with the budget
decremented after each child), for every child list and budget; and in
the concrete instance of two flexible children of intrinsic heights 10
and 10 under budget 15 (no fixed children, so the deduction loop
leaves the budget at 15), the first child receives height 10 and the
second height 5, as the rendered output shows. -/
theorem vertical_alloc_first_come :
    (∀ (elems : List UIElement) (rem w : JSNum)
        (out : List (JSNum × JStr)),
        UIElement.vertChildren elems rem w = some out →
        out.map Prod.fst =
          claimedAlloc
            (elems.map fun el =>
              (el.fixedHeightAttr, UIElement.calculateHeight el)) rem) ∧
    (UIElement.vertChildren [exVertA, exVertB] (.num 15) (.num 3)).map
        (List.map Prod.fst) = some [.num 10, .num 5] ∧
    vertRemaining [exVertA, exVertB] (.num 15) = .num 15 ∧
    UIElement.renderVertical [exVertA, exVertB] ⟨.num 20, .num 15⟩ =
      some ("A10\nB5 ".data) := by
  refine ⟨?_, by decide, by decide, rfl⟩
  intro elems
  induction elems with
  | nil =>
    intro rem w out hout
    simp only [UIElement.vertChildren] at hout
    cases hout
    simp [claimedAlloc]
  | cons el rest ih =>
    intro rem w out hout
    simp only [UIElement.vertChildren] at hout
    cases hfh : el.fixedHeightAttr with
    | some v =>
      rw [hfh] at hout
      cases hr : UIElement.render el ⟨w, .num v⟩ with
      | none => rw [hr] at hout; cases hout
      | some s =>
        rw [hr] at hout
        cases hrest : UIElement.vertChildren rest (jsSub rem (.num v)) w with
        | none => rw [hrest] at hout; cases hout
        | some others =>
          rw [hrest] at hout
          cases hout
          simp only [List.map, claimedAlloc, hfh]
          exact congrArg (List.cons (.num v))
            (ih (jsSub rem (.num v)) w others hrest)
    | none =>
      rw [hfh] at hout
      cases hr : UIElement.render el
          ⟨w, jsMin2 (UIElement.calculateHeight el) rem⟩ with
      | none => rw [hr] at hout; cases hout
      | some s =>
        rw [hr] at hout
        cases hrest : UIElement.vertChildren rest
            (jsSub rem (jsMin2 (UIElement.calculateHeight el) rem)) w with
        | none => rw [hrest] at hout; cases hout
        | some others =>
          rw [hrest] at hout
          cases hout
          simp only [List.map, claimedAlloc, hfh]
          exact congrArg (List.cons (jsMin2 (UIElement.calculateHeight el) rem))
            (ih (jsSub rem (jsMin2 (UIElement.calculateHeight el) rem)) w
              others hrest)

/-- Witness for the C2 theorem: at the concrete two-child instance the
side condition (the per-child pass succeeds) holds by evaluation, and
the theorem yields the claimed allocation. -/
theorem vertical_alloc_first_come_witness :
    UIElement.vertChildren [exVertA, exVertB] (.num 15) (.num 3) =
      some [(.num 10, "A10".data), (.num 5, "B5".data)] ∧
    ([((.num 10 : JSNum), ("A10".data : JStr)),
        (.num 5, "B5".data)]).map Prod.fst =
      claimedAlloc
        ([exVertA, exVertB].map fun el =>
          (el.fixedHeightAttr, UIElement.calculateHeight el)) (.num 15) :=
  ⟨by decide,
    vertical_alloc_first_come.1 [exVertA, exVertB] (.num 15) (.num 3)
      [(.num 10, "A10".data), (.num 5, "B5".data)] (by decide)⟩

/-- splitLines never returns an empty list of pieces. -/
theorem splitLines_ne_nil : ∀ s : JStr, splitLines s ≠ []
  | [] => by simp [splitLines]
  | c :: rest => by
    have h := splitLines_ne_nil rest
    simp only [splitLines]
    split
    · simp
    · split
      · simp
      · simp

/-- No piece produced by splitLines contains a newline. -/
theorem no_newline_of_mem_splitLines :
    ∀ (s : JStr) (l : JStr), l ∈ splitLines s → '\n' ∉ l := by
  intro s
  induction s with
  | nil =>
    intro l hl
    simp [splitLines] at hl
    simp [hl]
  | cons c rest ih =>
    intro l hl
    simp only [splitLines] at hl
    by_cases hc : c = '\n'
    · rw [if_pos hc] at hl
      rcases List.mem_cons.mp hl with h | h
      · simp [h]
      · exact ih l h
    · rw [if_neg hc] at hl
      rcases hsp : splitLines rest with _ | ⟨p, ps⟩
      · exact absurd hsp (splitLines_ne_nil rest)
      · rw [hsp] at hl
        rcases List.mem_cons.mp hl with h | h
        · subst h
          intro hmem
          rcases List.mem_cons.mp hmem with h | h
          · exact hc h.symm
          · exact ih p (by rw [hsp]; exact List.mem_cons_self _ _) h
        · exact ih l (by rw [hsp]; exact List.mem_cons_of_mem p h)

/-- A string without newlines splits into the single piece that is the
string itself. -/
theorem splitLines_of_no_newline :
    ∀ l : JStr, '\n' ∉ l → splitLines l = [l] := by
  intro l
  induction l with
  | nil => intro; rfl
  | cons c rest ih =>
    intro h
    have hc : ¬ c = '\n' := fun he => h (he ▸ List.mem_cons_self c rest)
    have hrest : '\n' ∉ rest := fun hm => h (List.mem_cons_of_mem c hm)
    simp only [splitLines, if_neg hc, ih hrest]

/-- Splitting a newline-free prefix followed by an explicit newline
peels off exactly that prefix. -/
theorem splitLines_append_newline :
    ∀ (l t : JStr), '\n' ∉ l →
      splitLines (l ++ '\n' :: t) = l :: splitLines t := by
  intro l
  induction l with
  | nil => intro t _; simp [splitLines]
  | cons c rest ih =>
    intro t h
    have hc : ¬ c = '\n' := fun he => h (he ▸ List.mem_cons_self c rest)
    have hrest : '\n' ∉ rest := fun hm => h (List.mem_cons_of_mem c hm)
    show splitLines (c :: (rest ++ '\n' :: t)) = (c :: rest) :: splitLines t
    simp only [splitLines, if_neg hc, ih t hrest]

/-- Splitting the newline join of a nonempty list of newline-free
lines recovers exactly those lines. -/
theorem splitLines_joinLines :
    ∀ ls : List JStr, ls ≠ [] → (∀ l ∈ ls, '\n' ∉ l) →
      splitLines (joinLines ls) = ls := by
  intro ls
  induction ls with
  | nil => intro h; exact absurd rfl h
  | cons l rest ih =>
    intro _ hnl
    rcases rest with _ | ⟨l2, rest2⟩
    · exact splitLines_of_no_newline l (hnl l (List.mem_cons_self _ _))
    · have hjoin : joinLines (l :: l2 :: rest2) =
          l ++ '\n' :: joinLines (l2 :: rest2) := rfl
      rw [hjoin,
        splitLines_append_newline l _ (hnl l (List.mem_cons_self _ _)),
        ih (by simp) (fun x hx => hnl x (List.mem_cons_of_mem l hx))]

/-- Length of a single-character join: the sum of the pieces' lengths
plus one separator per gap. -/
theorem joinWith_length :
    ∀ (sep : Char) (ps : List JStr), ps ≠ [] →
      (joinWith sep ps).length + 1 = (ps.map List.length).sum + ps.length := by
  intro sep ps
  induction ps with
  | nil => intro h; exact absurd rfl h
  | cons p rest ih =>
    intro _
    rcases rest with _ | ⟨p2, rest2⟩
    · simp [joinWith]
    · have hj : joinWith sep (p :: p2 :: rest2) =
          p ++ sep :: joinWith sep (p2 :: rest2) := rfl
      have := ih (by simp)
      simp only [hj, List.length_append, List.length_cons, List.map_cons,
        List.sum_cons] at *
      omega

/-- A character distinct from the separator and absent from every
piece is absent from the join. -/
theorem not_mem_joinWith :
    ∀ (c sep : Char) (ps : List JStr), c ≠ sep → (∀ p ∈ ps, c ∉ p) →
      c ∉ joinWith sep ps := by
  intro c sep ps hc
  induction ps with
  | nil => intro _; simp [joinWith]
  | cons p rest ih =>
    intro hnp
    rcases rest with _ | ⟨p2, rest2⟩
    · simpa [joinWith] using hnp p (List.mem_cons_self _ _)
    · have hj : joinWith sep (p :: p2 :: rest2) =
          p ++ sep :: joinWith sep (p2 :: rest2) := rfl
      rw [hj]
      intro hmem
      rcases List.mem_append.mp hmem with h | h
      · exact hnp p (List.mem_cons_self _ _) h
      · rcases List.mem_cons.mp h with h | h
        · exact hc h
        · exact ih (fun q hq => hnp q (List.mem_cons_of_mem p hq)) h

/-- mapOption succeeds whenever the function succeeds on every
element, and the results relate pointwise to the inputs. -/
theorem mapOption_total {α β : Type} (f : α → Option β) :
    ∀ xs : List α, (∀ x ∈ xs, ∃ y, f x = some y) →
      ∃ ys, mapOption f xs = some ys ∧
        List.Forall₂ (fun x y => f x = some y) xs ys := by
  intro xs
  induction xs with
  | nil => intro _; exact ⟨[], rfl, List.Forall₂.nil⟩
  | cons x rest ih =>
    intro h
    obtain ⟨y, hy⟩ := h x (List.mem_cons_self _ _)
    obtain ⟨ys, hys, hrel⟩ := ih (fun z hz => h z (List.mem_cons_of_mem x hz))
    refine ⟨y :: ys, ?_, List.Forall₂.cons hy hrel⟩
    simp only [mapOption, hy, hys]

/-- Every right-hand member of a Forall₂ relation has a related
left-hand member. -/
theorem forallTwo_mem_right {α β : Type} {R : α → β → Prop} :
    ∀ {xs : List α} {ys : List β}, List.Forall₂ R xs ys →
      ∀ y ∈ ys, ∃ x ∈ xs, R x y := by
  intro xs ys h
  induction h with
  | nil => intro y hy; cases hy
  | cons hxy _ ih =>
    intro y hy
    rcases List.mem_cons.mp hy with h | h
    · exact ⟨_, List.mem_cons_self _ _, h ▸ hxy⟩
    · obtain ⟨x, hx, hR⟩ := ih y h
      exact ⟨x, List.mem_cons_of_mem _ hx, hR⟩

/-- The binary maximum is positive infinity only if an argument is. -/
theorem jsMax2_ne_inf {a b : JSNum} (ha : a ≠ .inf) (hb : b ≠ .inf) :
    jsMax2 a b ≠ .inf := by
  cases a <;> cases b <;> simp_all [jsMax2]

/-- The spread maximum is positive infinity only if an element is. -/
theorem jsMaxList_ne_inf {xs : List JSNum}
    (h : ∀ x ∈ xs, x ≠ .inf) : jsMaxList xs ≠ .inf := by
  have hgen : ∀ (ys : List JSNum) (acc : JSNum), acc ≠ .inf →
      (∀ x ∈ ys, x ≠ .inf) → ys.foldl jsMax2 acc ≠ .inf := by
    intro ys
    induction ys with
    | nil => intro acc hacc _; exact hacc
    | cons y rest ih =>
      intro acc hacc hys
      exact ih (jsMax2 acc y)
        (jsMax2_ne_inf hacc (hys y (List.mem_cons_self _ _)))
        (fun x hx => hys x (List.mem_cons_of_mem y hx))
  exact hgen xs .ninf (by simp) h

/-- The loop bound is defined (the loop terminates) whenever the
height maximum is not positive infinity. -/
theorem loopBound_isSome {x : JSNum} (h : x ≠ .inf) :
    ∃ b, loopBound x = some b := by
  cases x <;> simp_all [loopBound]

/-- The minimum with a finite number is never positive infinity. -/
theorem jsMin2_num_ne_inf (k : Int) (b : JSNum) :
    jsMin2 (.num k) b ≠ .inf := by
  cases b <;> simp [jsMin2]

/-- The spread maximum of a nonempty list of integers, each at least
one, is an integer at least one. -/
theorem jsMaxList_num_ge_one {xs : List JSNum} (hne : xs ≠ [])
    (h : ∀ x ∈ xs, ∃ j : Int, x = .num j ∧ 1 ≤ j) :
    ∃ m : Int, jsMaxList xs = .num m ∧ 1 ≤ m := by
  have hgen : ∀ (ys : List JSNum) (a : Int), 1 ≤ a →
      (∀ x ∈ ys, ∃ j : Int, x = .num j ∧ 1 ≤ j) →
      ∃ m : Int, ys.foldl jsMax2 (.num a) = .num m ∧ 1 ≤ m := by
    intro ys
    induction ys with
    | nil => intro a ha _; exact ⟨a, rfl, ha⟩
    | cons y rest ih =>
      intro a ha hys
      obtain ⟨j, hj, hj1⟩ := hys y (List.mem_cons_self _ _)
      subst hj
      have : jsMax2 (.num a) (.num j) = .num (max a j) := rfl
      rw [List.foldl_cons, this]
      exact ih (max a j) (le_trans ha (le_max_left a j))
        (fun x hx => hys x (List.mem_cons_of_mem _ hx))
  rcases xs with _ | ⟨x, rest⟩
  · exact absurd rfl hne
  · obtain ⟨j, hj, hj1⟩ := h x (List.mem_cons_self _ _)
    subst hj
    have hstep : jsMaxList (JSNum.num j :: rest) =
        rest.foldl jsMax2 (.num j) := by
      simp [jsMaxList, jsMax2]
    rw [hstep]
    exact hgen rest j hj1 (fun x hx => h x (List.mem_cons_of_mem _ hx))

/-- A list of nonnegative integers has nonnegative sum, and mapping
Int.toNat commutes with the sum. -/
theorem int_sum_toNat :
    ∀ xs : List Int, (∀ x ∈ xs, 0 ≤ x) →
      0 ≤ xs.sum ∧ (xs.map Int.toNat).sum = xs.sum.toNat := by
  intro xs
  induction xs with
  | nil => intro _; exact ⟨le_refl 0, rfl⟩
  | cons x rest ih =>
    intro h
    have hx := h x (List.mem_cons_self _ _)
    obtain ⟨hs, hmap⟩ := ih (fun z hz => h z (List.mem_cons_of_mem x hz))
    constructor
    · simp only [List.sum_cons]
      omega
    · simp only [List.map_cons, List.sum_cons, hmap]
      omega

/-- Hypotheses on a fixed-width child of a horizontal Flex: its fixed
width is set and nonnegative, its height getter is a finite number,
and its render succeeds under the width and clamped height the
horizontal pass assigns it. -/
def FixedWidthChildOk (maxH : JSNum) (el : UIElement) : Prop :=
  (∃ w : Int, el.fixedWidthAttr = some w ∧ 0 ≤ w) ∧
  (∃ k : Int, UIElement.height el = .num k) ∧
  (∃ s, UIElement.render el
      ⟨.num ((el.fixedWidthAttr).getD 0),
        jsMin2 (UIElement.height el) maxH⟩ = some s)

/-- The per-child horizontal pass succeeds on fixed-width children and
produces, for each child in order: its fixed width as assigned width,
the clamped height getter as assigned height, and the split lines of
its successful render. -/
theorem horizChildren_fixed_ok (dims : RenderConstraints) (fw : JSNum) :
    ∀ elems : List UIElement,
      (∀ el ∈ elems, FixedWidthChildOk dims.maxHeight el) →
      ∃ eds, UIElement.horizChildren elems dims fw = some eds ∧
        List.Forall₂ (fun el ed =>
          ed.1 = JSNum.num ((el.fixedWidthAttr).getD 0) ∧
          0 ≤ (el.fixedWidthAttr).getD 0 ∧
          ed.2.1 = jsMin2 (UIElement.height el) dims.maxHeight ∧
          (∃ k : Int, UIElement.height el = .num k) ∧
          ∃ s, UIElement.render el ⟨ed.1, ed.2.1⟩ = some s ∧
            ed.2.2 = splitLines s) elems eds := by
  intro elems
  induction elems with
  | nil => intro _; exact ⟨[], rfl, List.Forall₂.nil⟩
  | cons el rest ih =>
    intro hok
    obtain ⟨⟨w, hw, hw0⟩, ⟨k, hk⟩, ⟨s, hs⟩⟩ :=
      hok el (List.mem_cons_self _ _)
    obtain ⟨eds, heds, hrel⟩ :=
      ih (fun e he => hok e (List.mem_cons_of_mem el he))
    have hs' : UIElement.render el
        ⟨.num w, jsMin2 (UIElement.height el) dims.maxHeight⟩ = some s := by
      rw [hw] at hs
      simpa using hs
    refine ⟨(.num w, jsMin2 (UIElement.height el) dims.maxHeight,
        splitLines s) :: eds, ?_, ?_⟩
    · simp only [UIElement.horizChildren, hw, hs', heds]
    · refine List.Forall₂.cons ⟨by simp [hw], by simp [hw]; exact hw0,
        rfl, ⟨k, hk⟩, s, hs', rfl⟩ hrel

/-- Every line the horizontal pass emits over fixed-width children is
defined: each piece is either a rendered line or a space fill of the
child's nonnegative fixed width. -/
theorem horizLineAt_total {elems : List UIElement}
    {eds : List (JSNum × JSNum × List JStr)} {dims : RenderConstraints}
    (hrel : List.Forall₂ (fun el ed =>
      ed.1 = JSNum.num ((el.fixedWidthAttr).getD 0) ∧
      0 ≤ (el.fixedWidthAttr).getD 0 ∧
      ed.2.1 = jsMin2 (UIElement.height el) dims.maxHeight ∧
      (∃ k : Int, UIElement.height el = .num k) ∧
      ∃ s, UIElement.render el ⟨ed.1, ed.2.1⟩ = some s ∧
        ed.2.2 = splitLines s) elems eds) (i : Nat) :
    ∃ pieces, mapOption (horizPiece i) eds = some pieces ∧
      List.Forall₂ (fun ed piece => horizPiece i ed = some piece)
        eds pieces := by
  apply mapOption_total
  intro ed hed
  obtain ⟨el, _, hw, hw0, _⟩ := forallTwo_mem_right hrel ed hed
  have hrep : ∃ r, jsRepeatSpaces ed.1 = some r := by
    rw [hw]
    simp [jsRepeatSpaces]
    omega
  rcases hget : ed.2.2[i]? with _ | l
  · simpa [horizPiece, hget] using hrep
  · by_cases hl : l = []
    · simpa [horizPiece, hget, hl] using hrep
    · exact ⟨l, by simp [horizPiece, hget, hl]⟩

/-- C3 amended: there is no explicit zero-count guard in the source;
with zero flexible children the flexible share is the result of a
JavaScript division by zero, NaN in the concrete one-fixed-child case,
not 0.  Rendering still never throws, because JavaScript division does
not throw and every child reads its own fixed width instead of the
share: for every horizontal Flex whose children all have nonnegative
fixed widths, finite height getters and succeeding renders, rendering
succeeds under any budget, and the concrete fixed-width-10 child at
maxWidth 10 renders without error. -/
theorem zero_flexible_render_never_throws :
    (∀ (elems : List UIElement) (maxW maxH : JSNum),
        (∀ el ∈ elems, FixedWidthChildOk maxH el) →
        ∃ out, UIElement.renderHorizontal elems ⟨maxW, maxH⟩ = some out) ∧
    horizFlexibleWidth [exFixed10] (.num 10) = .nan ∧
    UIElement.renderHorizontal [exFixed10] ⟨.num 10, .num 3⟩ =
      some ("xxxxxxxxxx\n          \n          ".data) := by
  refine ⟨?_, by decide, rfl⟩
  intro elems maxW maxH hok
  obtain ⟨eds, heds, hrel⟩ := horizChildren_fixed_ok ⟨maxW, maxH⟩
    (horizFlexibleWidth elems maxW) elems hok
  have hnoinf : ∀ x ∈ eds.map (fun ed => ed.2.1), x ≠ JSNum.inf := by
    intro x hx
    obtain ⟨ed, hed, hxed⟩ := List.mem_map.mp hx
    obtain ⟨el, _, _, _, hmin, ⟨k, hk⟩, _⟩ := forallTwo_mem_right hrel ed hed
    rw [← hxed, hmin, hk]
    exact jsMin2_num_ne_inf k _
  obtain ⟨bound, hbound⟩ := loopBound_isSome (jsMaxList_ne_inf hnoinf)
  have hline : ∀ i ∈ List.range bound, ∃ l,
      horizLineAt eds i = some l := by
    intro i _
    obtain ⟨pieces, hpieces, _⟩ := horizLineAt_total hrel i
    exact ⟨joinWith ' ' pieces, by simp only [horizLineAt, hpieces]⟩
  obtain ⟨lines, hlines, _⟩ :=
    mapOption_total (fun i => horizLineAt eds i) (List.range bound) hline
  refine ⟨joinLines lines, ?_⟩
  simp only [UIElement.renderHorizontal, UIElement.render, heds, hbound,
    hlines]

/-- C3 counterexample: the flexible share with zero flexible children
is not the claimed 0: the unguarded division 0/0 makes it NaN in the
concrete one-fixed-child instance at maxWidth 10. -/
theorem zero_flexible_share_not_zero :
    horizFlexibleWidth [exFixed10] (.num 10) ≠ .num 0 ∧
    horizFlexibleWidth [exFixed10] (.num 10) = .nan := by
  decide

/-- Witness for the C3 amended theorem at the concrete one-child
instance: the child-side conditions hold by evaluation and the theorem
yields a successful render. -/
theorem zero_flexible_render_never_throws_witness :
    (∀ el ∈ [exFixed10], FixedWidthChildOk (.num 3) el) ∧
    ∃ out, UIElement.renderHorizontal [exFixed10] ⟨.num 10, .num 3⟩ =
      some out :=
  have hok : ∀ el ∈ [exFixed10], FixedWidthChildOk (.num 3) el := by
    intro el hel
    have he : el = exFixed10 := List.mem_singleton.mp hel
    subst he
    exact ⟨⟨10, rfl, by decide⟩, ⟨3, by decide⟩,
      ⟨"xxxxxxxxxx".data, rfl⟩⟩
  ⟨hok, zero_flexible_render_never_throws.1 [exFixed10] (.num 10) (.num 3)
    hok⟩

/-- A membership-aware strengthening of Forall₂. -/
theorem forallTwo_imp_mem {α β : Type} {R S : α → β → Prop} :
    ∀ {xs : List α} {ys : List β}, List.Forall₂ R xs ys →
      (∀ x ∈ xs, ∀ y, R x y → S x y) → List.Forall₂ S xs ys := by
  intro xs ys h
  induction h with
  | nil => intro _; exact List.Forall₂.nil
  | @cons x y xs ys hxy _ ih =>
    intro hstr
    exact List.Forall₂.cons (hstr x (List.mem_cons_self _ _) y hxy)
      (ih (fun z hz => hstr z (List.mem_cons_of_mem x hz)))

/-- Composition of two Forall₂ relations along the shared middle
list. -/
theorem forallTwo_comp {α β γ : Type} {R : α → β → Prop}
    {S : β → γ → Prop} :
    ∀ {xs : List α} {ys : List β} {zs : List γ},
      List.Forall₂ R xs ys → List.Forall₂ S ys zs →
      List.Forall₂ (fun x z => ∃ y, R x y ∧ S y z) xs zs := by
  intro xs ys zs h
  induction h generalizing zs with
  | nil =>
    intro h2
    cases h2
    exact List.Forall₂.nil
  | @cons x y xs ys hxy _ ih =>
    intro h2
    cases h2 with
    | cons hyz htail => exact List.Forall₂.cons ⟨y, hxy, hyz⟩ (ih htail)

/-- A pointwise functional Forall₂ relation determines the mapped
lists. -/
theorem forallTwo_map_eq {α β γ : Type} {f : α → γ} {g : β → γ} :
    ∀ {xs : List α} {ys : List β},
      List.Forall₂ (fun x y => g y = f x) xs ys →
      ys.map g = xs.map f := by
  intro xs ys h
  induction h with
  | nil => rfl
  | cons hxy _ ih => simp [ih, hxy]

/-- One output line of the horizontal pass over fixed-width children
whose rendered lines fill their assigned widths: the line exists and
its display width is the sum of the children's widths plus one
separating space per gap. -/
theorem horizLineAt_width {elems : List UIElement}
    {eds : List (JSNum × JSNum × List JStr)} {maxW : Int}
    (hrel : List.Forall₂ (fun el ed =>
      ed.1 = JSNum.num ((el.fixedWidthAttr).getD 0) ∧
      0 ≤ (el.fixedWidthAttr).getD 0 ∧
      ∀ l ∈ ed.2.2, stringWidth l = ((el.fixedWidthAttr).getD 0).toNat ∧
        '\n' ∉ l) elems eds)
    (hpos : ∀ el ∈ elems, 0 ≤ (el.fixedWidthAttr).getD 0)
    (hsum : (elems.map (fun el => (el.fixedWidthAttr).getD 0)).sum = maxW)
    (hne : elems ≠ []) (i : Nat) :
    ∃ line, horizLineAt eds i = some line ∧
      stringWidth line + 1 = maxW.toNat + elems.length ∧ '\n' ∉ line := by
  have hex : ∀ ed ∈ eds, ∃ piece, horizPiece i ed = some piece := by
    intro ed hed
    obtain ⟨el, _, hw, hw0, _⟩ := forallTwo_mem_right hrel ed hed
    have hrep : ∃ r, jsRepeatSpaces ed.1 = some r := by
      rw [hw]
      simp [jsRepeatSpaces]
      omega
    rcases hget : ed.2.2[i]? with _ | l
    · simpa [horizPiece, hget] using hrep
    · by_cases hl : l = []
      · simpa [horizPiece, hget, hl] using hrep
      · exact ⟨l, by simp [horizPiece, hget, hl]⟩
  obtain ⟨pieces, hpieces, hrelp⟩ := mapOption_total (horizPiece i) eds hex
  have hcomp := forallTwo_comp hrel hrelp
  have hprops : List.Forall₂ (fun el (piece : JStr) =>
      piece.length = ((el.fixedWidthAttr).getD 0).toNat ∧
      '\n' ∉ piece) elems pieces := by
    refine List.Forall₂.imp ?_ hcomp
    intro el piece ⟨ed, ⟨hw, hw0, hlines⟩, hpc⟩
    rcases hget : ed.2.2[i]? with _ | l
    · simp only [horizPiece, hget, hw, jsRepeatSpaces,
        if_neg (not_lt.mpr hw0)] at hpc
      cases hpc
      simp
    · simp only [horizPiece, hget] at hpc
      by_cases hl : l = []
      · simp only [if_pos hl, hw, jsRepeatSpaces,
          if_neg (not_lt.mpr hw0)] at hpc
        cases hpc
        simp
      · rw [if_neg hl] at hpc
        cases hpc
        exact hlines piece (List.getElem?_mem hget)
  have hlen : pieces.map List.length =
      elems.map (fun el => ((el.fixedWidthAttr).getD 0).toNat) :=
    forallTwo_map_eq (List.Forall₂.imp (fun _ _ h => h.1) hprops)
  have hnonl : ∀ p ∈ pieces, '\n' ∉ p := by
    intro p hp
    obtain ⟨el, _, _, hhp⟩ := forallTwo_mem_right hprops p hp
    exact hhp
  have hplen : pieces.length = elems.length := (hprops.length_eq).symm
  have hpne : pieces ≠ [] := by
    intro h
    rw [h] at hplen
    exact hne (List.length_eq_zero.mp hplen.symm)
  refine ⟨joinWith ' ' pieces, by simp only [horizLineAt, hpieces], ?_, ?_⟩
  · have hj := joinWith_length ' ' pieces hpne
    have hnn : ∀ x ∈ elems.map (fun el => (el.fixedWidthAttr).getD 0),
        (0 : Int) ≤ x := by
      intro x hx
      obtain ⟨el, hel, hxel⟩ := List.mem_map.mp hx
      exact hxel ▸ hpos el hel
    have hsums := (int_sum_toNat _ hnn).2
    rw [List.map_map] at hsums
    have hfn : (Int.toNat ∘ fun el : UIElement => (el.fixedWidthAttr).getD 0) =
        (fun el : UIElement => ((el.fixedWidthAttr).getD 0).toNat) := rfl
    rw [hfn, hsum] at hsums
    rw [hlen, hsums, hplen] at hj
    exact hj
  · exact not_mem_joinWith '\n' ' ' pieces (by decide) hnonl
/-- Hypotheses on a child of a horizontal Flex for the line-width
account: it satisfies FixedWidthChildOk, its height getter is a
finite number at least 1, and every line of its render under the
assigned constraints fills exactly its fixed width. -/
def ChildFillsWidth (maxH : JSNum) (el : UIElement) : Prop :=
  FixedWidthChildOk maxH el ∧
  (∃ k : Int, UIElement.height el = .num k ∧ 1 ≤ k) ∧
  ∀ s, UIElement.render el
      ⟨.num ((el.fixedWidthAttr).getD 0),
        jsMin2 (UIElement.height el) maxH⟩ = some s →
    ∀ l ∈ splitLines s, stringWidth l = ((el.fixedWidthAttr).getD 0).toNat

/-- C1 amended: when a horizontal Flex's children all have fixed
widths summing to maxWidth and each child's render fills its assigned
width, every rendered line has display width maxWidth plus one space
per gap between children, that is maxWidth + (number of children - 1):
the single-space join makes every multi-child line exceed maxWidth. -/
theorem horizontal_lines_sum_plus_gaps (elems : List UIElement)
    (maxW maxH : Int) (hne : elems ≠ []) (hH : 1 ≤ maxH)
    (hok : ∀ el ∈ elems, ChildFillsWidth (.num maxH) el)
    (hsum : (elems.map (fun el => (el.fixedWidthAttr).getD 0)).sum = maxW) :
    ∃ out, UIElement.renderHorizontal elems ⟨.num maxW, .num maxH⟩ =
        some out ∧
      splitLines out ≠ [] ∧
      ∀ l ∈ splitLines out,
        stringWidth l = maxW.toNat + (elems.length - 1) := by
  have hok0 : ∀ el ∈ elems,
      FixedWidthChildOk
        (RenderConstraints.mk (.num maxW) (.num maxH)).maxHeight el :=
    fun el hel => (hok el hel).1
  obtain ⟨eds, heds, hrel0⟩ := horizChildren_fixed_ok
    ⟨.num maxW, .num maxH⟩ (horizFlexibleWidth elems (.num maxW)) elems hok0
  have hrelQ : List.Forall₂ (fun el ed =>
      ed.1 = JSNum.num ((el.fixedWidthAttr).getD 0) ∧
      0 ≤ (el.fixedWidthAttr).getD 0 ∧
      ∀ l ∈ ed.2.2, stringWidth l = ((el.fixedWidthAttr).getD 0).toNat ∧
        '\n' ∉ l) elems eds := by
    refine forallTwo_imp_mem hrel0 ?_
    intro el hel ed hR
    obtain ⟨hw1, hw0, hmin, _, s, hs, hsplit⟩ := hR
    obtain ⟨_, _, hfill⟩ := hok el hel
    refine ⟨hw1, hw0, ?_⟩
    intro l hl
    rw [hw1, hmin] at hs
    rw [hsplit] at hl
    exact ⟨hfill s hs l hl, no_newline_of_mem_splitLines s l hl⟩
  have hpos : ∀ el ∈ elems, 0 ≤ (el.fixedWidthAttr).getD 0 := by
    intro el hel
    obtain ⟨⟨w, hw, hw0⟩, _, _⟩ := (hok el hel).1
    rw [hw]
    simpa using hw0
  have hhts : ∀ x ∈ eds.map (fun ed => ed.2.1),
      ∃ j : Int, x = .num j ∧ 1 ≤ j := by
    intro x hx
    obtain ⟨ed, hed, hxed⟩ := List.mem_map.mp hx
    obtain ⟨el, hel, _, _, hmin, _, _⟩ := forallTwo_mem_right hrel0 ed hed
    obtain ⟨_, ⟨k, hk, hk1⟩, _⟩ := hok el hel
    refine ⟨min k maxH, ?_, le_min hk1 hH⟩
    rw [← hxed, hmin, hk]
    rfl
  have hedsne : eds.map (fun ed => ed.2.1) ≠ [] := by
    have hlen := hrel0.length_eq
    intro h
    simp only [List.map_eq_nil_iff] at h
    rw [h] at hlen
    exact hne (List.length_eq_zero.mp hlen)
  obtain ⟨m, hm, hm1⟩ := jsMaxList_num_ge_one hedsne hhts
  have hbound : loopBound (jsMaxList (eds.map fun ed => ed.2.1)) =
      some m.toNat := by
    rw [hm]
    rfl
  have hlinesEx : ∀ i ∈ List.range m.toNat, ∃ l,
      horizLineAt eds i = some l := by
    intro i _
    obtain ⟨line, hline, _, _⟩ := horizLineAt_width hrelQ hpos hsum hne i
    exact ⟨line, hline⟩
  obtain ⟨lines, hlines, hrelL⟩ := mapOption_total
    (fun i => horizLineAt eds i) (List.range m.toNat) hlinesEx
  have hnl : ∀ l ∈ lines, '\n' ∉ l ∧
      stringWidth l + 1 = maxW.toNat + elems.length := by
    intro l hl
    obtain ⟨i, _, hfi⟩ := forallTwo_mem_right hrelL l hl
    obtain ⟨line, hline, hwid, hnn⟩ := horizLineAt_width hrelQ hpos hsum hne i
    rw [hfi] at hline
    injection hline with hline
    subst hline
    exact ⟨hnn, hwid⟩
  have hlne : lines ≠ [] := by
    have hlen := hrelL.length_eq
    intro h
    rw [h] at hlen
    simp at hlen
    omega
  have hsplitj : splitLines (joinLines lines) = lines :=
    splitLines_joinLines lines hlne (fun l hl => (hnl l hl).1)
  refine ⟨joinLines lines, ?_, ?_, ?_⟩
  · simp only [UIElement.renderHorizontal, UIElement.render, heds, hbound,
      hlines]
  · rw [hsplitj]
    exact hlne
  · intro l hl
    rw [hsplitj] at hl
    have hw := (hnl l hl).2
    have hlp : 1 ≤ elems.length := List.length_pos.mpr hne
    omega

/-- C1 counterexample: two fixed-width-5 children whose widths sum to
the budget 10 render, at maxWidth 10, a line of display width 11: the
single-space join exceeds maxWidth, refuting both the exact-fit and
the no-overflow part of the claim. -/
theorem horizontal_line_overflows :
    UIElement.width exA = .num 5 ∧
    UIElement.width exB = .num 5 ∧
    UIElement.renderHorizontal [exA, exB] ⟨.num 10, .num 1⟩ =
      some ("aaaaa bbbbb".data) ∧
    stringWidth ("aaaaa bbbbb".data) = 11 ∧
    ¬ stringWidth ("aaaaa bbbbb".data) ≤ 10 := by
  decide

/-- The C1 side conditions hold for the width-5 example child exA
under height budget 1. -/
theorem exA_fills_width : ChildFillsWidth (.num 1) exA :=
  ⟨⟨⟨5, rfl, by decide⟩, ⟨1, rfl⟩, ⟨"aaaaa".data, rfl⟩⟩,
    ⟨1, rfl, le_refl 1⟩, by
      intro s hs
      rw [show UIElement.render exA
          ⟨.num ((exA.fixedWidthAttr).getD 0),
            jsMin2 (UIElement.height exA) (.num 1)⟩ =
          some ("aaaaa".data) from rfl] at hs
      injection hs with h
      subst h
      decide⟩

/-- The C1 side conditions hold for the width-5 example child exB
under height budget 1. -/
theorem exB_fills_width : ChildFillsWidth (.num 1) exB :=
  ⟨⟨⟨5, rfl, by decide⟩, ⟨1, rfl⟩, ⟨"bbbbb".data, rfl⟩⟩,
    ⟨1, rfl, le_refl 1⟩, by
      intro s hs
      rw [show UIElement.render exB
          ⟨.num ((exB.fixedWidthAttr).getD 0),
            jsMin2 (UIElement.height exB) (.num 1)⟩ =
          some ("bbbbb".data) from rfl] at hs
      injection hs with h
      subst h
      decide⟩

/-- Witness for the C1 amended theorem at the two-child instance with
widths 5 and 5 summing to maxWidth 10: every rendered line has width
10 + (2 - 1) = 11. -/
theorem horizontal_lines_sum_plus_gaps_witness :
    (([exA, exB] : List UIElement) ≠ [] ∧ (1 : Int) ≤ 1 ∧
      ([exA, exB].map
        (fun el => (el.fixedWidthAttr).getD 0)).sum = (10 : Int)) ∧
    ∃ out, UIElement.renderHorizontal [exA, exB] ⟨.num 10, .num 1⟩ =
        some out ∧
      splitLines out ≠ [] ∧
      ∀ l ∈ splitLines out,
        stringWidth l = (10 : Int).toNat + (([exA, exB] : List UIElement).length - 1) := by
  refine ⟨⟨by simp, le_refl 1, by decide⟩, ?_⟩
  refine horizontal_lines_sum_plus_gaps [exA, exB] 10 1 (by simp)
    (le_refl 1) ?_ (by decide)
  intro el hel
  rcases List.mem_cons.mp hel with rfl | hel2
  · exact exA_fills_width
  · rw [List.mem_singleton.mp hel2]
    exact exB_fills_width
